import Mathlib

/-!
# Word Chain Game — verification of the validation and scoring core

Shallow embedding of the word-chain game's logic layer:

* `src/utils/gameLogic.js` — `getLastLetter`, `startsWithCorrectLetter`,
  `levenshteinDistance`, `findBrand`, `findBrandFuzzy`, `isBrandValid`,
  `isBrandValidAsync`;
* `src/utils/wikipediaApi.js` — `validateBrandWithWikipedia`;
* `src/hooks/useGameState.js` — the game-state record and the `submitWord`,
  `endGame` / `skipTurn` operations.

Modelling conventions:

* JS strings are Lean `String`s (a list of characters).  JS `null`/`undefined`
  string values are represented by the empty string wherever the code treats
  the two identically (every use site here tests plain falsiness, so `null`
  and `""` are observationally equal); optional record fields are `Option`.
* `String.prototype.trim` is modelled by stripping leading/trailing
  whitespace characters; `toLowerCase`/`toUpperCase` by character-wise
  `Char.toLower`/`Char.toUpper` (the dictionary and all messages are ASCII).
* The regex class `\w` is ASCII `[A-Za-z0-9_]` and `\s` is whitespace.
* The Wikipedia round trip is an external effect: the pure function
  `validateBrandWithWikipedia` takes the network outcome (`WikiResponse`) as
  an explicit argument, and the asynchronous validator / `submitWord` take
  the already-awaited `WikiResult` as an explicit argument.
* The React `useState` cell group of `useGameState` is the record
  `GameState`; `submitWord` maps a state and a word to the successor state
  plus the value it returns to the UI.  All functions are total — the JS
  code catches every exception it can raise internally.
-/

set_option linter.unusedSectionVars false

namespace WordChain

/-! ## Character and string helpers -/

/-- Whitespace as removed by `String.prototype.trim` (ASCII fragment). -/
def wsChar (c : Char) : Bool := c.isWhitespace

/-- `l` with leading and trailing whitespace characters removed. -/
def trimList (l : List Char) : List Char :=
  ((l.dropWhile wsChar).reverse.dropWhile wsChar).reverse

/-- JS `s.trim()`. -/
def trimStr (s : String) : String := ⟨trimList s.data⟩

/-- JS `s.toLowerCase()` (character-wise; the data here is ASCII). -/
def lowerStr (s : String) : String := ⟨s.data.map Char.toLower⟩

/-- JS `s.toUpperCase()` (character-wise; the data here is ASCII). -/
def upperStr (s : String) : String := ⟨s.data.map Char.toUpper⟩

/-- Is `p` a (list) prefix of `l`?  Boolean worker for `strIncludes`. -/
def isPref : List Char → List Char → Bool
  | [], _ => true
  | _ :: _, [] => false
  | a :: as, b :: bs => a = b && isPref as bs

/-- Does `p` occur as a contiguous run inside `l`?  Worker for `strIncludes`. -/
def inclAux (p : List Char) : List Char → Bool
  | [] => p.isEmpty
  | c :: rest => isPref p (c :: rest) || inclAux p rest

/-- JS `s.includes(p)`: `p` is a contiguous substring of `s`. -/
def strIncludes (p s : String) : Bool := inclAux p.data s.data

theorem isPref_iff (p : List Char) : ∀ l, isPref p l = true ↔ ∃ t, p ++ t = l := by
  induction p with
  | nil => intro l; simp [isPref]
  | cons a as ih =>
    intro l
    cases l with
    | nil => simp [isPref]
    | cons b bs =>
      simp only [isPref, Bool.and_eq_true, decide_eq_true_eq, ih bs]
      constructor
      · rintro ⟨rfl, t, rfl⟩; exact ⟨t, rfl⟩
      · rintro ⟨t, h⟩
        injection h with h1 h2
        exact ⟨h1, t, h2⟩

theorem inclAux_iff (p : List Char) : ∀ l, inclAux p l = true ↔ ∃ u v, u ++ p ++ v = l := by
  intro l
  induction l with
  | nil =>
    simp only [inclAux, List.isEmpty_iff]
    constructor
    · rintro rfl; exact ⟨[], [], rfl⟩
    · rintro ⟨u, v, h⟩
      rcases List.append_eq_nil.mp h with ⟨h1, h2⟩
      exact (List.append_eq_nil.mp h1).2
  | cons c rest ih =>
    simp only [inclAux, Bool.or_eq_true, isPref_iff, ih]
    constructor
    · rintro (⟨t, ht⟩ | ⟨u, v, huv⟩)
      · exact ⟨[], t, ht⟩
      · exact ⟨c :: u, v, by simp [← huv]⟩
    · rintro ⟨u, v, huv⟩
      cases u with
      | nil => exact Or.inl ⟨v, by simpa using huv⟩
      | cons a u' =>
        injection huv with h1 h2
        exact Or.inr ⟨u', v, h2⟩

theorem strIncludes_iff (p s : String) :
    strIncludes p s = true ↔ ∃ u v, u ++ p.data ++ v = s.data := inclAux_iff p.data s.data

/-! ## Levenshtein distance: recursive core

`levRec` is the standard first-character recurrence; below it is proved equal
to the dynamic-programming matrix `levMatrix` that `levenshteinDistance`
(`gameLogic.js` lines 54–88) fills in. -/

/-- Inner worker making `levRec` structurally recursive: `levGo x (levRec xs) ys`
computes `levRec (x :: xs) ys`. -/
def levGo {α : Type} [DecidableEq α] (x : α) (f : List α → Nat) : List α → Nat
  | [] => f [] + 1
  | y :: ys =>
    if x = y then f ys
    else min (f ys) (min (levGo x f ys) (f (y :: ys))) + 1

/-- Classic Levenshtein distance (unit-cost insert/delete/substitute). -/
def levRec {α : Type} [DecidableEq α] : List α → List α → Nat
  | [], ys => ys.length
  | x :: xs, ys => levGo x (levRec xs) ys

section LevCore

variable {α : Type} [DecidableEq α]

@[simp] theorem levRec_nil_left (ys : List α) : levRec [] ys = ys.length := rfl

@[simp] theorem levRec_nil_right : ∀ xs : List α, levRec xs [] = xs.length := by
  intro xs
  cases xs with
  | nil => rfl
  | cons x xs => simp [levRec, levGo, levRec_nil_right xs]

theorem levRec_cons_cons (x y : α) (xs ys : List α) :
    levRec (x :: xs) (y :: ys) =
      if x = y then levRec xs ys
      else min (levRec xs ys) (min (levRec (x :: xs) ys) (levRec xs (y :: ys))) + 1 := by
  simp only [levRec, levGo]

@[simp] theorem levRec_self : ∀ xs : List α, levRec xs xs = 0 := by
  intro xs
  induction xs with
  | nil => rfl
  | cons x xs ih => rw [levRec_cons_cons, if_pos rfl, ih]

theorem levRec_symm : ∀ xs ys : List α, levRec xs ys = levRec ys xs := by
  intro xs
  induction xs with
  | nil => intro ys; simp
  | cons x xs ihx =>
    intro ys
    induction ys with
    | nil => simp
    | cons y ys ihy =>
      rw [levRec_cons_cons, levRec_cons_cons]
      by_cases h : x = y
      · subst h; rw [if_pos rfl, if_pos rfl, ihx]
      · rw [if_neg h, if_neg (fun hr => h hr.symm), ihx ys, ihx (y :: ys), ihy]
        omega

/-- Both one-character cons bounds at once (strong induction on total length). -/
theorem levRec_cons_aux : ∀ (n : Nat) (s b : List α) (c : α), s.length + b.length ≤ n →
    levRec (c :: s) b ≤ levRec s b + 1 ∧ levRec s b ≤ levRec (c :: s) b + 1 := by
  intro n
  induction n with
  | zero =>
    intro s b c h
    have hs : s = [] := List.length_eq_zero.mp (by omega)
    have hb : b = [] := List.length_eq_zero.mp (by omega)
    subst hs; subst hb
    simp
  | succ n ih =>
    intro s b c h
    cases b with
    | nil =>
      simp only [levRec_nil_right, List.length_cons]
      omega
    | cons y ys =>
      simp only [List.length_cons] at h
      have hys : ys.length + s.length ≤ n := by omega
      have hsy : s.length + ys.length ≤ n := by omega
      constructor
      · rw [levRec_cons_cons]
        by_cases hc : c = y
        · rw [if_pos hc]
          have h2 := (ih ys s y hys).2
          calc levRec s ys = levRec ys s := levRec_symm s ys
            _ ≤ levRec (y :: ys) s + 1 := h2
            _ = levRec s (y :: ys) + 1 := by rw [levRec_symm (y :: ys) s]
        · rw [if_neg hc]
          have h3 : min (levRec s ys) (min (levRec (c :: s) ys) (levRec s (y :: ys)))
              ≤ levRec s (y :: ys) := le_trans (min_le_right _ _) (min_le_right _ _)
          omega
      · rw [levRec_cons_cons]
        by_cases hc : c = y
        · rw [if_pos hc]
          subst hc
          have h2 := (ih ys s c hys).1
          calc levRec s (c :: ys) = levRec (c :: ys) s := levRec_symm s (c :: ys)
            _ ≤ levRec ys s + 1 := h2
            _ = levRec s ys + 1 := by rw [levRec_symm ys s]
        · rw [if_neg hc]
          have h1 : levRec s (y :: ys) ≤ levRec s ys + 1 := by
            have := (ih ys s y hys).1
            calc levRec s (y :: ys) = levRec (y :: ys) s := levRec_symm s (y :: ys)
              _ ≤ levRec ys s + 1 := this
              _ = levRec s ys + 1 := by rw [levRec_symm ys s]
          have h2 : levRec s ys ≤ levRec (c :: s) ys + 1 := (ih s ys c hsy).2
          omega

theorem levRec_cons_le (c : α) (s b : List α) : levRec (c :: s) b ≤ levRec s b + 1 :=
  (levRec_cons_aux (s.length + b.length) s b c le_rfl).1

theorem levRec_le_cons (c : α) (s b : List α) : levRec s b ≤ levRec (c :: s) b + 1 :=
  (levRec_cons_aux (s.length + b.length) s b c le_rfl).2

theorem levRec_consr_le (c : α) (s b : List α) : levRec s (c :: b) ≤ levRec s b + 1 := by
  rw [levRec_symm s (c :: b), levRec_symm s b]; exact levRec_cons_le c b s

theorem levRec_le_consr (c : α) (s b : List α) : levRec s b ≤ levRec s (c :: b) + 1 := by
  rw [levRec_symm s (c :: b), levRec_symm s b]; exact levRec_le_cons c b s

/-- Substituting the head character changes the distance by at most one. -/
theorem levRec_sub_head (c d : α) : ∀ (b s : List α),
    levRec (c :: s) b ≤ levRec (d :: s) b + 1 := by
  intro b
  induction b with
  | nil => intro s; simp
  | cons y ys ih =>
    intro s
    rw [levRec_cons_cons, levRec_cons_cons]
    by_cases hc : c = y <;> by_cases hd : d = y
    · rw [if_pos hc, if_pos hd]; omega
    · rw [if_pos hc, if_neg hd]
      have h1 : levRec s ys ≤ levRec (d :: s) ys + 1 := levRec_le_cons d s ys
      have h2 : levRec s ys ≤ levRec s (y :: ys) + 1 := levRec_le_consr y s ys
      omega
    · rw [if_neg hc, if_pos hd]
      have h3 : min (levRec s ys) (min (levRec (c :: s) ys) (levRec s (y :: ys)))
          ≤ levRec s ys := min_le_left _ _
      omega
    · rw [if_neg hc, if_neg hd]
      have hih := ih s
      omega

/-- Lifting a one-step bound under a common head character. -/
theorem levRec_lift_cons (u v : List α) (x : α)
    (H : ∀ b : List α, levRec u b ≤ levRec v b + 1) :
    ∀ b : List α, levRec (x :: u) b ≤ levRec (x :: v) b + 1 := by
  intro b
  induction b with
  | nil =>
    have := H []
    simp only [levRec_nil_right, List.length_cons] at this ⊢
    omega
  | cons y ys ih =>
    rw [levRec_cons_cons, levRec_cons_cons]
    by_cases hx : x = y
    · rw [if_pos hx, if_pos hx]; exact H ys
    · rw [if_neg hx, if_neg hx]
      have h1 := H ys
      have h2 := H (y :: ys)
      omega

/-- Deleting one character anywhere in the first argument lowers the
distance by at most one. -/
theorem levRec_del_le : ∀ (p s : List α) (c : α) (b : List α),
    levRec (p ++ s) b ≤ levRec (p ++ c :: s) b + 1 := by
  intro p
  induction p with
  | nil => intro s c b; exact levRec_le_cons c s b
  | cons a p' ih =>
    intro s c b
    exact levRec_lift_cons (p' ++ s) (p' ++ c :: s) a (fun b' => ih s c b') b

/-- Inserting one character anywhere in the first argument raises the
distance by at most one. -/
theorem levRec_ins_le : ∀ (p s : List α) (c : α) (b : List α),
    levRec (p ++ c :: s) b ≤ levRec (p ++ s) b + 1 := by
  intro p
  induction p with
  | nil => intro s c b; exact levRec_cons_le c s b
  | cons a p' ih =>
    intro s c b
    exact levRec_lift_cons (p' ++ c :: s) (p' ++ s) a (fun b' => ih s c b') b

/-- Substituting one character anywhere in the first argument changes the
distance by at most one. -/
theorem levRec_subst_le : ∀ (p s : List α) (c d : α) (b : List α),
    levRec (p ++ c :: s) b ≤ levRec (p ++ d :: s) b + 1 := by
  intro p
  induction p with
  | nil => intro s c d b; exact levRec_sub_head c d b s
  | cons a p' ih =>
    intro s c d b
    exact levRec_lift_cons (p' ++ c :: s) (p' ++ d :: s) a (fun b' => ih s c d b') b

/-! ### Edit scripts: the path characterization used for the triangle
inequality -/

/-- One single-character edit (insertion, deletion or substitution). -/
inductive Edit : List α → List α → Prop where
  | ins (p s : List α) (c : α) : Edit (p ++ s) (p ++ c :: s)
  | del (p s : List α) (c : α) : Edit (p ++ c :: s) (p ++ s)
  | sub (p s : List α) (c d : α) : Edit (p ++ c :: s) (p ++ d :: s)

/-- A chain of `n` single-character edits. -/
inductive EditPath : List α → List α → Nat → Prop where
  | refl (l : List α) : EditPath l l 0
  | step {a b c : List α} {n : Nat} : Edit a b → EditPath b c n → EditPath a c (n + 1)

theorem edit_symm {a b : List α} : Edit a b → Edit b a := by
  intro e
  cases e with
  | ins p s c => exact Edit.del p s c
  | del p s c => exact Edit.ins p s c
  | sub p s c d => exact Edit.sub p s d c

theorem edit_cons {a b : List α} (x : α) : Edit a b → Edit (x :: a) (x :: b) := by
  intro e
  cases e with
  | ins p s c => exact Edit.ins (x :: p) s c
  | del p s c => exact Edit.del (x :: p) s c
  | sub p s c d => exact Edit.sub (x :: p) s c d

theorem editPath_cons {a b : List α} {n : Nat} (x : α) :
    EditPath a b n → EditPath (x :: a) (x :: b) n := by
  intro h
  induction h with
  | refl l => exact EditPath.refl (x :: l)
  | step e _ ih => exact EditPath.step (edit_cons x e) ih

theorem editPath_trans {a b c : List α} {m n : Nat} :
    EditPath a b m → EditPath b c n → EditPath a c (m + n) := by
  intro h1
  induction h1 generalizing c n with
  | refl l => intro h2; simpa using h2
  | step e _ ih =>
    intro h2
    have := EditPath.step e (ih h2)
    simpa [Nat.succ_add] using this

theorem edit_toPath {a b : List α} (e : Edit a b) : EditPath a b 1 :=
  EditPath.step e (EditPath.refl b)

theorem editPath_symm {a b : List α} {n : Nat} : EditPath a b n → EditPath b a n := by
  intro h
  induction h with
  | refl l => exact EditPath.refl l
  | step e _ ih =>
    have := editPath_trans ih (edit_toPath (edit_symm e))
    simpa using this

theorem editPath_nil_left : ∀ b : List α, EditPath ([] : List α) b b.length := by
  intro b
  induction b with
  | nil => exact EditPath.refl []
  | cons y ys ih =>
    have e : Edit ([] : List α) [y] := Edit.ins [] [] y
    have h2 : EditPath [y] (y :: ys) ys.length := editPath_cons y ih
    have := editPath_trans (edit_toPath e) h2
    simpa [Nat.add_comm] using this

/-- An edit path realising `levRec a b` always exists. -/
theorem editPath_levRec : ∀ (n : Nat) (a b : List α), a.length + b.length ≤ n →
    EditPath a b (levRec a b) := by
  intro n
  induction n with
  | zero =>
    intro a b h
    have ha : a = [] := List.length_eq_zero.mp (by omega)
    have hb : b = [] := List.length_eq_zero.mp (by omega)
    subst ha; subst hb
    exact EditPath.refl []
  | succ n ih =>
    intro a b h
    cases a with
    | nil => simpa using editPath_nil_left b
    | cons x xs =>
      cases b with
      | nil =>
        have := editPath_symm (editPath_nil_left (x :: xs))
        simpa using this
      | cons y ys =>
        simp only [List.length_cons] at h
        rw [levRec_cons_cons]
        by_cases hxy : x = y
        · subst hxy
          rw [if_pos rfl]
          exact editPath_cons x (ih xs ys (by omega))
        · rw [if_neg hxy]
          rcases min_choice (levRec xs ys)
              (min (levRec (x :: xs) ys) (levRec xs (y :: ys))) with hA | hBC
          · rw [hA]
            have e : Edit (x :: xs) (y :: xs) := Edit.sub [] xs x y
            have h2 : EditPath (y :: xs) (y :: ys) (levRec xs ys) :=
              editPath_cons y (ih xs ys (by omega))
            have := editPath_trans (edit_toPath e) h2
            simpa [Nat.add_comm] using this
          · rw [hBC]
            rcases min_choice (levRec (x :: xs) ys) (levRec xs (y :: ys)) with hB | hC
            · rw [hB]
              have h1 : EditPath (x :: xs) ys (levRec (x :: xs) ys) :=
                ih (x :: xs) ys (by simp; omega)
              have e : Edit ys (y :: ys) := Edit.ins [] ys y
              exact editPath_trans h1 (edit_toPath e)
            · rw [hC]
              have e : Edit (x :: xs) xs := Edit.del [] xs x
              have h2 : EditPath xs (y :: ys) (levRec xs (y :: ys)) :=
                ih xs (y :: ys) (by simp; omega)
              have := editPath_trans (edit_toPath e) h2
              simpa [Nat.add_comm] using this

/-- Any edit path bounds `levRec` from above. -/
theorem levRec_le_of_editPath {a b : List α} {n : Nat} :
    EditPath a b n → levRec a b ≤ n := by
  intro h
  induction h with
  | refl l => simp
  | @step u v w m e hp ih =>
    cases e with
    | ins p s c =>
      have := levRec_del_le p s c w
      omega
    | del p s c =>
      have := levRec_ins_le p s c w
      omega
    | sub p s c d =>
      have := levRec_subst_le p s c d w
      omega

/-- Triangle inequality for the recursive Levenshtein distance. -/
theorem levRec_triangle (a b c : List α) :
    levRec a c ≤ levRec a b + levRec b c := by
  have p1 : EditPath a b (levRec a b) := editPath_levRec _ a b le_rfl
  have p2 : EditPath b c (levRec b c) := editPath_levRec _ b c le_rfl
  exact levRec_le_of_editPath (editPath_trans p1 p2)

end LevCore

/-! ## Levenshtein distance: the DP matrix of `gameLogic.js`

`levenshteinDistance(a, b)` builds `matrix[i][j]` with `matrix[i][0] = i`,
`matrix[0][j] = j` and the recurrence comparing `bLower[i-1]` with
`aLower[j-1]`, returning `matrix[bLower.length][aLower.length]`.  The matrix
is uniquely determined by that recurrence, modelled by `levMatrixRow a b i j`
(= cell `[i][j]`). -/

/-- Row `i + 1` of the DP matrix, given row `i` as `prev`. -/
def levMatrixGo (a b : List Char) (i : Nat) (prev : Nat → Nat) : Nat → Nat
  | 0 => i + 1
  | j + 1 =>
    if b.getD i ' ' = a.getD j ' ' then prev j
    else min (prev j) (min (levMatrixGo a b i prev j) (prev (j + 1))) + 1

/-- Cell `[i][j]` of the DP matrix of `levenshteinDistance`. -/
def levMatrixRow (a b : List Char) : Nat → Nat → Nat
  | 0 => fun j => j
  | i + 1 => levMatrixGo a b i (levMatrixRow a b i)

theorem take_reverse_succ : ∀ (a : List Char) (j : Nat), j < a.length →
    (a.take (j + 1)).reverse = a.getD j ' ' :: (a.take j).reverse := by
  intro a
  induction a with
  | nil => intro j h; simp at h
  | cons x xs ih =>
    intro j h
    cases j with
    | zero => simp [List.getD]
    | succ j' =>
      have hj : j' < xs.length := by
        simp only [List.length_cons] at h
        omega
      simp only [List.take_succ_cons, List.reverse_cons, List.getD_cons_succ]
      rw [ih j' hj]
      simp

/-- The DP matrix agrees with the recursive distance on reversed prefixes. -/
theorem levMatrixRow_eq_levRec (a b : List Char) :
    ∀ i, i ≤ b.length → ∀ j, j ≤ a.length →
      levMatrixRow a b i j = levRec ((a.take j).reverse) ((b.take i).reverse) := by
  intro i
  induction i with
  | zero =>
    intro _ j hj
    simp only [levMatrixRow, List.take_zero, List.reverse_nil, levRec_nil_right,
      List.length_reverse, List.length_take]
    omega
  | succ i ih =>
    intro hi j
    induction j with
    | zero =>
      intro _
      simp only [levMatrixRow, levMatrixGo, List.take_zero, List.reverse_nil,
        levRec_nil_left, List.length_reverse, List.length_take]
      omega
    | succ j ihj =>
      intro hj
      have hj' : j < a.length := by omega
      have hi' : i < b.length := by omega
      have hA : levMatrixRow a b i j = levRec ((a.take j).reverse) ((b.take i).reverse) :=
        ih (by omega) j (by omega)
      have hB := ih (by omega) (j + 1) hj
      have hC := ihj (by omega)
      rw [take_reverse_succ a j hj'] at hB
      simp only [levMatrixRow] at hC
      rw [take_reverse_succ b i hi'] at hC
      rw [take_reverse_succ a j hj', take_reverse_succ b i hi', levRec_cons_cons]
      show levMatrixGo a b i (levMatrixRow a b i) (j + 1) = _
      simp only [levMatrixGo]
      by_cases h : b.getD i ' ' = a.getD j ' '
      · rw [if_pos h, if_pos h.symm]
        exact hA
      · rw [if_neg h, if_neg (fun hx => h hx.symm)]
        rw [hA, hB, hC]
        omega

/-- `levenshteinDistance` (`gameLogic.js` lines 54–88): the falsy guard
`if (!a || !b) return a ? a.length : (b ? b.length : 0)`, then the DP matrix
over the lowercased strings, returning `matrix[bLower.length][aLower.length]`. -/
def levenshteinDistance (a b : String) : Nat :=
  if a = "" then b.length
  else if b = "" then a.length
  else levMatrixRow (lowerStr a).data (lowerStr b).data (lowerStr b).data.length
    (lowerStr a).data.length

/-- The code's distance is the recursive Levenshtein distance of the reversed
lowercased character lists (the guard branches agree with the general case). -/
theorem levenshteinDistance_eq_levRec (a b : String) :
    levenshteinDistance a b =
      levRec (lowerStr a).data.reverse (lowerStr b).data.reverse := by
  unfold levenshteinDistance
  by_cases ha : a = ""
  · subst ha
    rw [if_pos rfl]
    show b.data.length = _
    simp [lowerStr]
  · by_cases hb : b = ""
    · subst hb
      rw [if_neg ha, if_pos rfl]
      show a.data.length = _
      simp [lowerStr]
    · rw [if_neg ha, if_neg hb]
      rw [levMatrixRow_eq_levRec (lowerStr a).data (lowerStr b).data
        (lowerStr b).data.length le_rfl (lowerStr a).data.length le_rfl,
        List.take_length, List.take_length]

/-! ## Letter extraction and the chain rule (`gameLogic.js` lines 11–46) -/

/-- A character kept by `replace(/[^\w\s]/g, '')`: ASCII word characters
(`[A-Za-z0-9_]`) and whitespace survive, punctuation is removed. -/
def keepWordOrSpace (c : Char) : Bool := c.isAlphanum || c = '_' || c.isWhitespace

/-- `getLastLetter` (lines 11–24): trim, strip punctuation, trim again, then
the last character lowercased — or `""` when nothing remains. -/
def getLastLetter (word : String) : String :=
  match (trimStr ⟨(trimStr word).data.filter keepWordOrSpace⟩).data.getLast? with
  | none => ""
  | some c => String.singleton c.toLower

/-- `word.trim().charAt(0).toLowerCase()`: the first character of the trimmed
string, lowercased, or `""` when the trimmed string is empty (JS `charAt`
out of range yields `""`). -/
def firstLetter (word : String) : String :=
  match (trimStr word).data with
  | [] => ""
  | c :: _ => String.singleton c.toLower

/-- `startsWithCorrectLetter` (lines 32–46).  A falsy or whitespace-only
`lastWord` accepts anything; a falsy `word` is rejected; otherwise the first
letter of `word` must equal `getLastLetter lastWord`. -/
def startsWithCorrectLetter (word lastWord : String) : Bool :=
  if trimStr lastWord = "" then true
  else if word = "" then false
  else firstLetter word == getLastLetter lastWord

/-! ## Brand dictionary and the resolver (`gameLogic.js` lines 97–164) -/

/-- A dictionary entry: either a bare name string or an object with a `name`
field.  An object whose `name` is missing behaves exactly like one whose
`name` is `""` (both are falsy and are skipped by every consumer), so the
missing case is represented by `obj ""`. -/
inductive Brand where
  | str (s : String)
  | obj (name : String)
deriving DecidableEq, Repr

/-- `typeof brand === 'string' ? brand : brand?.name`. -/
def Brand.nameOf : Brand → String
  | .str s => s
  | .obj n => n

/-- Resolver confidence tier. -/
inductive Confidence where
  | exact
  | fuzzy
  | none
deriving DecidableEq, Repr

/-- Result of `findBrandFuzzy`. -/
structure FuzzyResult where
  brand : Option Brand
  confidence : Confidence
  distance : Option Nat
deriving DecidableEq, Repr

/-- `findBrand` (lines 147–164): first dictionary entry whose (truthy) name
equals the trimmed, lowercased search term. -/
def findBrand (word : String) (brands : List Brand) : Option Brand :=
  if word = "" then none
  else brands.find? fun b =>
    b.nameOf != "" && lowerStr b.nameOf == lowerStr (trimStr word)

/-- Does distance `d` beat the best distance recorded so far
(`Infinity` when nothing has been recorded)? -/
def beats (d : Nat) : Option (Brand × Nat) → Bool
  | Option.none => true
  | Option.some p => d < p.2

/-- The `for (const brand of brands)` loop of `findBrandFuzzy` (lines
115–132): skip falsy names, compute the distance, and record the entry when
it is within the threshold and strictly better than the best so far. -/
def fuzzyLoop (t : String) (thr : Nat) : List Brand → Option (Brand × Nat) → Option (Brand × Nat)
  | [], best => best
  | b :: rest, best =>
    if b.nameOf = "" then fuzzyLoop t thr rest best
    else if levenshteinDistance t b.nameOf ≤ thr ∧ beats (levenshteinDistance t b.nameOf) best then
      fuzzyLoop t thr rest (Option.some (b, levenshteinDistance t b.nameOf))
    else fuzzyLoop t thr rest best

/-- `findBrandFuzzy` (lines 97–139).  Exact match first; otherwise the fuzzy
loop with threshold `min maxDistance (max 1 ⌊0.4·len⌋)`.  `⌊len * 0.4⌋` is
modelled as `2 * len / 5`: the two floors agree wherever the value feeds
`min maxDistance (max 1 ·)` (for `len ≤ 4` both give `≤ 1` and the `max`
clamps to 1; for `len ≥ 5` both give `≥ 2`; IEEE-754 gives `5 * 0.4 = 2`
exactly). -/
def findBrandFuzzy (word : String) (brands : List Brand) (maxDistance : Nat) : FuzzyResult :=
  if word = "" then ⟨Option.none, Confidence.none, Option.none⟩
  else
    match findBrand (trimStr word) brands with
    | Option.some b => ⟨Option.some b, Confidence.exact, Option.none⟩
    | Option.none =>
      match fuzzyLoop (trimStr word)
          (min maxDistance (max 1 (2 * (trimStr word).length / 5))) brands Option.none with
      | Option.some (b, d) => ⟨Option.some b, Confidence.fuzzy, Option.some d⟩
      | Option.none => ⟨Option.none, Confidence.none, Option.none⟩

/-! ## Validators (`gameLogic.js` lines 175–290, `wikipediaApi.js`) -/

/-- Where a word was validated. -/
inductive MatchSource where
  | database
  | wikipedia
deriving DecidableEq, Repr

/-- The validator's verdict (`{ valid, error, brand, suggestion, source }`;
absent JS fields are `none`). -/
structure VResult where
  valid : Bool
  error : Option String
  brand : Option String
  suggestion : Option String
  source : Option MatchSource
deriving DecidableEq, Repr

/-- `isBrandValid` (lines 175–235). -/
def isBrandValid (word : String) (brands : List Brand) (lastWord : String) : VResult :=
  if trimStr word = "" then
    ⟨false, some "Please enter a word", none, none, none⟩
  else
    match findBrandFuzzy (trimStr word) brands 2 with
    | ⟨_, Confidence.none, _⟩ =>
      ⟨false, some ("\"" ++ trimStr word ++ "\" is not a recognized brand"),
        none, none, none⟩
    | ⟨b, Confidence.fuzzy, _⟩ =>
      ⟨false, some ("Did you mean \"" ++ (b.map Brand.nameOf).getD "" ++ "\"?"),
        none, some ((b.map Brand.nameOf).getD ""), none⟩
    | ⟨b, Confidence.exact, _⟩ =>
      if trimStr lastWord ≠ "" ∧ startsWithCorrectLetter (trimStr word) lastWord = false then
        ⟨false, some ("Word must start with \"" ++ upperStr (getLastLetter lastWord) ++ "\""),
          none, none, none⟩
      else
        ⟨true, none, some ((b.map Brand.nameOf).getD ""), none, none⟩

/-- Result record of `validateBrandWithWikipedia`
(`{ valid, exists, title, error }`; `exists` is rendered `existsFlag`). -/
structure WikiResult where
  valid : Bool
  existsFlag : Bool
  title : Option String
  error : Option String
deriving DecidableEq, Repr

/-- The outcome of the network round trip inside
`validateBrandWithWikipedia`: the `fetch` may throw, the response may be
non-2xx, `response.json()` may throw, and the parsed body may or may not
carry `data.query.search` (a list of result titles). -/
inductive WikiResponse where
  | fetchError
  | notOk
  | jsonError
  | payload (search : Option (List String))
deriving DecidableEq, Repr

/-- The per-result match test of `validateBrandWithWikipedia` (lines 46–59):
exact lowercased equality, or either string contained in the other. -/
def wikiTitleMatches (searchTerm title : String) : Bool :=
  lowerStr title == lowerStr searchTerm ||
  strIncludes (lowerStr searchTerm) (lowerStr title) ||
  strIncludes (lowerStr title) (lowerStr searchTerm)

/-- `validateBrandWithWikipedia` (`wikipediaApi.js` lines 13–67), as a pure
function of the candidate and the network outcome.  Every failure path is
caught internally and returns a record (the JS function never throws). -/
def validateBrandWithWikipedia (brand : String) (resp : WikiResponse) : WikiResult :=
  if brand = "" then ⟨false, false, none, some "Invalid brand name"⟩
  else
    match resp with
    | WikiResponse.fetchError => ⟨false, false, none, some "Network error"⟩
    | WikiResponse.notOk => ⟨false, false, none, some "Wikipedia API request failed"⟩
    | WikiResponse.jsonError => ⟨false, false, none, some "Network error"⟩
    | WikiResponse.payload Option.none => ⟨false, false, none, some "No results found"⟩
    | WikiResponse.payload (Option.some results) =>
      match results.find? (wikiTitleMatches (trimStr brand)) with
      | Option.some title => ⟨true, true, some title, none⟩
      | Option.none => ⟨false, false, none, none⟩

/-- The trigger `dbValidation.error && dbValidation.error.includes('not a
recognized brand')` of `isBrandValidAsync` (line 256). -/
def errTriggers : Option String → Bool
  | Option.none => false
  | Option.some e => e != "" && strIncludes "not a recognized brand" e

/-- `isBrandValidAsync` (lines 244–290), with the awaited Wikipedia result
passed explicitly (`wikiResult` stands for
`await validateBrandWithWikipedia(word.trim())`). -/
def isBrandValidAsync (word : String) (brands : List Brand) (lastWord : String)
    (wikiResult : WikiResult) : VResult :=
  if (isBrandValid word brands lastWord).valid then
    { isBrandValid word brands lastWord with source := some MatchSource.database }
  else if errTriggers (isBrandValid word brands lastWord).error then
    if wikiResult.valid then
      if trimStr lastWord ≠ "" ∧ startsWithCorrectLetter (trimStr word) lastWord = false then
        ⟨false, some ("Word must start with \"" ++ upperStr (getLastLetter lastWord) ++ "\""),
          none, none, some MatchSource.wikipedia⟩
      else
        ⟨true, none, wikiResult.title, none, some MatchSource.wikipedia⟩
    else { isBrandValid word brands lastWord with source := some MatchSource.database }
  else { isBrandValid word brands lastWord with source := some MatchSource.database }

/-! ## Game state machine (`useGameState.js`) -/

/-- One accepted word in the history (`{ player, word, source }`). -/
structure WordEntry where
  player : Nat
  word : String
  source : Option MatchSource
deriving DecidableEq, Repr

/-- The `useGameState` state cells (player names are presentation-only and
omitted).  `scores` is the JS object `{1: …, 2: …}` as a function. -/
structure GameState where
  currentPlayer : Nat
  words : List WordEntry
  scores : Nat → Nat
  lastWord : String
  isGameOver : Bool
  winner : Option Nat

/-- The value `submitWord` resolves with
(`{ success, error, suggestion, source }`). -/
structure SubmitResult where
  success : Bool
  error : Option String
  suggestion : Option String
  source : Option MatchSource
deriving DecidableEq, Repr

/-- `startGame` (lines 35–45): the freshly reset state. -/
def initialState : GameState :=
  { currentPlayer := 1
    words := []
    scores := fun _ => 0
    lastWord := ""
    isGameOver := false
    winner := none }

/-- JS `x || null` on an optional string: `undefined`, `null` and `""` all
collapse to `null`. -/
def jsOr : Option String → Option String
  | Option.none => Option.none
  | Option.some s => if s = "" then Option.none else Option.some s

/-- `submitWord` (lines 61–92), parameterized by the dictionary the hook
imports (`BRANDS`) and by the awaited Wikipedia result for this call.
Returns the successor state together with the resolved value.  On a valid
outcome it appends `{player, word: validation.brand, source}`, sets
`lastWord` to the resolved brand, adds `word.length` (the raw submitted
string's length) to the acting player's score and flips `currentPlayer`;
on an invalid outcome it returns the state unchanged. -/
def submitWord (brands : List Brand) (wikiResult : WikiResult) (s : GameState)
    (word : String) : GameState × SubmitResult :=
  if (isBrandValidAsync word brands s.lastWord wikiResult).valid = false then
    (s, ⟨false, (isBrandValidAsync word brands s.lastWord wikiResult).error,
      jsOr (isBrandValidAsync word brands s.lastWord wikiResult).suggestion,
      (isBrandValidAsync word brands s.lastWord wikiResult).source⟩)
  else
    ({ currentPlayer := if s.currentPlayer = 1 then 2 else 1
       words := s.words ++
         [⟨s.currentPlayer, ((isBrandValidAsync word brands s.lastWord wikiResult).brand).getD "",
           (isBrandValidAsync word brands s.lastWord wikiResult).source⟩]
       scores := fun p =>
         if p = s.currentPlayer then s.scores p + word.length else s.scores p
       lastWord := ((isBrandValidAsync word brands s.lastWord wikiResult).brand).getD ""
       isGameOver := s.isGameOver
       winner := s.winner },
     ⟨true, none, none, (isBrandValidAsync word brands s.lastWord wikiResult).source⟩)

/-- `endGame` (lines 106–110): the current player failed, the other wins. -/
def endGame (s : GameState) : GameState :=
  { s with
    isGameOver := true
    winner := some (if s.currentPlayer = 1 then 2 else 1) }

/-- `skipTurn` (lines 115–117) just calls `endGame`. -/
def skipTurn (s : GameState) : GameState := endGame s

/-! ## Helper lemmas: trimming -/

theorem dropWhile_dropWhile (p : Char → Bool) :
    ∀ l : List Char, (l.dropWhile p).dropWhile p = l.dropWhile p := by
  intro l
  induction l with
  | nil => rfl
  | cons c l ih =>
    by_cases h : p c
    · simp [List.dropWhile_cons, h, ih]
    · simp [List.dropWhile_cons, h]

theorem length_dropWhile_le (p : Char → Bool) :
    ∀ l : List Char, (l.dropWhile p).length ≤ l.length := by
  intro l
  induction l with
  | nil => simp
  | cons c l ih =>
    by_cases h : p c
    · rw [List.dropWhile_cons, if_pos h]
      simp only [List.length_cons]
      omega
    · rw [List.dropWhile_cons, if_neg h]

theorem dropWhile_eq_self_of_prefix (p : Char → Bool) (m t : List Char)
    (hm : m.dropWhile p = m) (hpre : ∃ r, t ++ r = m) : t.dropWhile p = t := by
  rcases hpre with ⟨r, hr⟩
  cases t with
  | nil => rfl
  | cons c t' =>
    have hpc : p c = false := by
      by_contra hne
      rw [Bool.not_eq_false] at hne
      have hm' : m = c :: (t' ++ r) := by rw [← hr]; simp
      have hdrop : m.dropWhile p = (t' ++ r).dropWhile p := by
        rw [hm', List.dropWhile_cons, hne]
        simp
      have hlen : m.dropWhile p = m := hm
      rw [hdrop] at hlen
      have h1 : ((t' ++ r).dropWhile p).length ≤ (t' ++ r).length :=
        length_dropWhile_le p (t' ++ r)
      have h2 : m.length = (t' ++ r).length + 1 := by simp [hm']
      rw [hlen] at h1
      omega
    simp [List.dropWhile_cons, hpc]

theorem exists_append_dropWhile (p : Char → Bool) :
    ∀ l : List Char, ∃ u, u ++ l.dropWhile p = l := by
  intro l
  induction l with
  | nil => exact ⟨[], rfl⟩
  | cons c l ih =>
    by_cases h : p c
    · rcases ih with ⟨u, hu⟩
      exact ⟨c :: u, by simp [List.dropWhile_cons, h, hu]⟩
    · exact ⟨[], by simp [List.dropWhile_cons, h]⟩

theorem trimList_dropWhile (l : List Char) :
    (trimList l).dropWhile wsChar = trimList l := by
  apply dropWhile_eq_self_of_prefix wsChar (l.dropWhile wsChar) _
    (dropWhile_dropWhile wsChar l)
  rcases exists_append_dropWhile wsChar (l.dropWhile wsChar).reverse with ⟨u, hu⟩
  refine ⟨u.reverse, ?_⟩
  have := congrArg List.reverse hu
  simpa [trimList] using this

theorem trimList_reverse_dropWhile (l : List Char) :
    (trimList l).reverse.dropWhile wsChar = (trimList l).reverse := by
  simp [trimList, dropWhile_dropWhile]

theorem trimList_idem (l : List Char) : trimList (trimList l) = trimList l := by
  have step1 : trimList (trimList l)
      = (((trimList l).dropWhile wsChar).reverse.dropWhile wsChar).reverse := rfl
  rw [step1, trimList_dropWhile, trimList_reverse_dropWhile, List.reverse_reverse]

theorem trimStr_idem (s : String) : trimStr (trimStr s) = trimStr s := by
  simp [trimStr, trimList_idem]

theorem trimStr_empty : trimStr "" = "" := rfl

/-! ## Helper lemmas: `find?` -/

theorem find?_none_iff {β : Type} (p : β → Bool) :
    ∀ l : List β, l.find? p = Option.none ↔ ∀ x ∈ l, p x = false := by
  intro l
  induction l with
  | nil => simp [List.find?]
  | cons a l ih =>
    by_cases h : p a
    · simp [List.find?, h]
    · simp only [List.find?, h, ih]
      constructor
      · intro hall x hx
        rcases List.mem_cons.mp hx with rfl | hx'
        · simpa using h
        · exact hall x hx'
      · intro hall x hx
        exact hall x (List.mem_cons_of_mem _ hx)

theorem find?_some_split {β : Type} (p : β → Bool) :
    ∀ (l : List β) (b : β), l.find? p = Option.some b →
      ∃ l₁ l₂, l = l₁ ++ b :: l₂ ∧ p b = true ∧ ∀ x ∈ l₁, p x = false := by
  intro l
  induction l with
  | nil => intro b h; simp [List.find?] at h
  | cons a l ih =>
    intro b h
    by_cases hp : p a
    · simp only [List.find?, hp] at h
      injection h with h1
      subst h1
      exact ⟨[], l, rfl, hp, by simp⟩
    · simp only [List.find?, hp] at h
      rcases ih b h with ⟨l₁, l₂, rfl, hb, hall⟩
      refine ⟨a :: l₁, l₂, rfl, hb, ?_⟩
      intro x hx
      rcases List.mem_cons.mp hx with rfl | hx'
      · simpa using hp
      · exact hall x hx'

/-! ## Helper lemmas: the fuzzy loop -/

/-- An entry qualifies for the fuzzy pass: truthy name within the threshold. -/
def qualifies (t : String) (thr : Nat) (b : Brand) : Prop :=
  b.nameOf ≠ "" ∧ levenshteinDistance t b.nameOf ≤ thr

instance (t : String) (thr : Nat) (b : Brand) : Decidable (qualifies t thr b) := by
  unfold qualifies
  infer_instance

theorem beats_none (d : Nat) : beats d Option.none = true := rfl

theorem beats_some_iff (d : Nat) (p : Brand × Nat) :
    beats d (Option.some p) = true ↔ d < p.2 := by
  simp [beats]

theorem beats_trans (d d' : Nat) (acc : Option (Brand × Nat))
    (h1 : beats d' acc = true) (h2 : d < d') : beats d acc = true := by
  cases acc with
  | none => rfl
  | some p =>
    rw [beats_some_iff] at h1 ⊢
    omega

theorem fuzzyLoop_some_ne_none (t : String) (thr : Nat) :
    ∀ (l : List Brand) (p : Brand × Nat),
      fuzzyLoop t thr l (Option.some p) ≠ Option.none := by
  intro l
  induction l with
  | nil => intro p h; exact Option.noConfusion h
  | cons b rest ih =>
    intro p
    simp only [fuzzyLoop]
    by_cases h1 : b.nameOf = ""
    · rw [if_pos h1]; exact ih p
    · rw [if_neg h1]
      by_cases h2 : levenshteinDistance t b.nameOf ≤ thr ∧
          beats (levenshteinDistance t b.nameOf) (Option.some p) = true
      · rw [if_pos h2]; exact ih _
      · rw [if_neg h2]; exact ih p

theorem fuzzyLoop_none_iff (t : String) (thr : Nat) :
    ∀ l : List Brand,
      (fuzzyLoop t thr l Option.none = Option.none ↔ ∀ b ∈ l, ¬ qualifies t thr b) := by
  intro l
  induction l with
  | nil => simp [fuzzyLoop]
  | cons b rest ih =>
    simp only [fuzzyLoop]
    by_cases h1 : b.nameOf = ""
    · rw [if_pos h1, ih]
      constructor
      · intro h x hx
        rcases List.mem_cons.mp hx with rfl | hx'
        · intro hq; exact hq.1 h1
        · exact h x hx'
      · intro h x hx
        exact h x (List.mem_cons_of_mem _ hx)
    · rw [if_neg h1]
      by_cases h2 : levenshteinDistance t b.nameOf ≤ thr ∧
          beats (levenshteinDistance t b.nameOf) Option.none = true
      · rw [if_pos h2]
        constructor
        · intro h; exact absurd h (fuzzyLoop_some_ne_none t thr rest _)
        · intro h; exact absurd ⟨h1, h2.1⟩ (h b (List.mem_cons_self b rest))
      · rw [if_neg h2, ih]
        have hnq : ¬ qualifies t thr b := by
          intro hq
          exact h2 ⟨hq.2, beats_none _⟩
        constructor
        · intro h x hx
          rcases List.mem_cons.mp hx with rfl | hx'
          · exact hnq
          · exact h x hx'
        · intro h x hx
          exact h x (List.mem_cons_of_mem _ hx)

/-- Full characterization of the fuzzy loop: the result is either the
untouched accumulator (nothing in `l` beats it) or the first entry of `l`
attaining the minimal qualifying distance that beats the accumulator. -/
theorem fuzzyLoop_spec (t : String) (thr : Nat) :
    ∀ (l : List Brand) (acc : Option (Brand × Nat)) (b : Brand) (d : Nat),
      fuzzyLoop t thr l acc = Option.some (b, d) →
      (acc = Option.some (b, d) ∧
        ∀ x ∈ l, qualifies t thr x → d ≤ levenshteinDistance t x.nameOf)
      ∨ (∃ l₁ l₂, l = l₁ ++ b :: l₂ ∧ qualifies t thr b ∧
          d = levenshteinDistance t b.nameOf ∧ beats d acc = true ∧
          (∀ x ∈ l₁, qualifies t thr x →
            beats (levenshteinDistance t x.nameOf) acc = true →
            d < levenshteinDistance t x.nameOf) ∧
          (∀ x ∈ l₂, qualifies t thr x → d ≤ levenshteinDistance t x.nameOf)) := by
  intro l
  induction l with
  | nil =>
    intro acc b d h
    simp only [fuzzyLoop] at h
    exact Or.inl ⟨h, by simp⟩
  | cons hd rest ih =>
    intro acc b d h
    simp only [fuzzyLoop] at h
    by_cases h1 : hd.nameOf = ""
    · rw [if_pos h1] at h
      rcases ih acc b d h with ⟨ha, hall⟩ | ⟨l₁, l₂, hrest, hq, hdist, hb, hfirst, hlast⟩
      · left
        refine ⟨ha, ?_⟩
        intro x hx hqx
        rcases List.mem_cons.mp hx with rfl | hx'
        · exact absurd h1 hqx.1
        · exact hall x hx' hqx
      · right
        refine ⟨hd :: l₁, l₂, by rw [hrest]; rfl, hq, hdist, hb, ?_, hlast⟩
        intro x hx hqx hbx
        rcases List.mem_cons.mp hx with rfl | hx'
        · exact absurd h1 hqx.1
        · exact hfirst x hx' hqx hbx
    · rw [if_neg h1] at h
      by_cases h2 : levenshteinDistance t hd.nameOf ≤ thr ∧
          beats (levenshteinDistance t hd.nameOf) acc = true
      · rw [if_pos h2] at h
        rcases ih _ b d h with ⟨ha, hall⟩ | ⟨l₁, l₂, hrest, hq, hdist, hb, hfirst, hlast⟩
        · -- the recorded `(hd, dist hd)` survived: `b = hd`, `d = dist hd`
          right
          injection ha with ha'
          have hbhd : b = hd := (congrArg Prod.fst ha').symm
          have hdd : d = levenshteinDistance t hd.nameOf := (congrArg Prod.snd ha').symm
          subst hbhd
          refine ⟨[], rest, rfl, ⟨h1, h2.1⟩, hdd, ?_, by simp, hall⟩
          rw [hdd]
          exact h2.2
        · right
          have hdlt : d < levenshteinDistance t hd.nameOf := by
            rw [beats_some_iff] at hb
            exact hb
          refine ⟨hd :: l₁, l₂, by rw [hrest]; rfl, hq, hdist,
            beats_trans _ _ _ h2.2 hdlt, ?_, hlast⟩
          intro x hx hqx hbx
          rcases List.mem_cons.mp hx with rfl | hx'
          · exact hdlt
          · rcases Nat.lt_or_ge (levenshteinDistance t x.nameOf)
                (levenshteinDistance t hd.nameOf) with hlt | hge
            · exact hfirst x hx' hqx ((beats_some_iff _ _).mpr hlt)
            · omega
      · rw [if_neg h2] at h
        rcases ih acc b d h with ⟨ha, hall⟩ | ⟨l₁, l₂, hrest, hq, hdist, hb, hfirst, hlast⟩
        · left
          refine ⟨ha, ?_⟩
          intro x hx hqx
          rcases List.mem_cons.mp hx with rfl | hx'
          · -- x = hd: qualifies but the loop did not update, so d ≤ dist hd
            subst ha
            by_contra hne
            push_neg at hne
            exact h2 ⟨hqx.2, (beats_some_iff _ _).mpr hne⟩
          · exact hall x hx' hqx
        · right
          refine ⟨hd :: l₁, l₂, by rw [hrest]; rfl, hq, hdist, hb, ?_, hlast⟩
          intro x hx hqx hbx
          rcases List.mem_cons.mp hx with rfl | hx'
          · exact absurd ⟨hqx.2, hbx⟩ h2
          · exact hfirst x hx' hqx hbx

/-! ## Helper lemmas: substring occurrences around a separator character -/

theorem prefix_of_no_sep (q : Char) : ∀ (p x v y : List Char),
    p ++ v = x ++ q :: y → q ∉ p → ∃ w, p ++ w = x := by
  intro p
  induction p with
  | nil => intro x v y _ _; exact ⟨x, rfl⟩
  | cons c p' ih =>
    intro x v y h hq
    cases x with
    | nil =>
      simp only [List.cons_append, List.nil_append] at h
      injection h with h1 _
      refine absurd ?_ hq
      rw [← h1]
      exact List.mem_cons_self c p'
    | cons a x' =>
      simp only [List.cons_append] at h
      injection h with h1 h2
      rcases ih x' v y h2 (fun hm => hq (List.mem_cons_of_mem _ hm)) with ⟨w, hw⟩
      refine ⟨w, ?_⟩
      rw [h1]
      simp [hw]

/-- An occurrence of `p` (not containing `q`) inside `x ++ q :: y` lies
entirely inside `x` or entirely inside `y`. -/
theorem infix_split (q : Char) : ∀ (x p u v y : List Char),
    u ++ p ++ v = x ++ q :: y → q ∉ p →
    (∃ u' v', u' ++ p ++ v' = x) ∨ (∃ u' v', u' ++ p ++ v' = y) := by
  intro x p u
  induction u generalizing x with
  | nil =>
    intro v y h hq
    simp only [List.nil_append] at h
    rcases prefix_of_no_sep q p x v y h hq with ⟨w, hw⟩
    exact Or.inl ⟨[], w, by simpa using hw⟩
  | cons a u' ih =>
    intro v y h hq
    cases x with
    | nil =>
      simp only [List.cons_append, List.nil_append, List.append_assoc] at h
      injection h with _ h2
      refine Or.inr ⟨u', v, ?_⟩
      simpa [List.append_assoc] using h2
    | cons b x' =>
      simp only [List.cons_append] at h
      injection h with _ h2
      rcases ih x' v y h2 hq with ⟨u1, v1, huv⟩ | hr
      · exact Or.inl ⟨b :: u1, v1, by simp [← huv]⟩
      · exact Or.inr hr

/-- The phrase whose presence in an error message triggers the Wikipedia
fallback in `isBrandValidAsync`. -/
def noMatchPhrase : String := "not a recognized brand"

/-- If the suggested brand name does not contain the trigger phrase, neither
does the whole `Did you mean "<name>"?` message (the phrase contains no
quotation mark, so an occurrence cannot straddle the quoted name). -/
theorem phrase_not_in_didYouMean (sg : String)
    (h : strIncludes noMatchPhrase sg = false) :
    strIncludes noMatchPhrase ("Did you mean \"" ++ sg ++ "\"?") = false := by
  by_contra hc
  rw [Bool.not_eq_false] at hc
  rcases (strIncludes_iff _ _).mp hc with ⟨u, v, huv⟩
  have hdata : ("Did you mean \"" ++ sg ++ "\"?").data
      = "Did you mean ".data ++ '\"' :: (sg.data ++ '\"' :: ['?']) := by
    have e1 : ("Did you mean \"" ++ sg ++ "\"?").data
        = "Did you mean \"".data ++ sg.data ++ "\"?".data := by
      simp [String.data_append]
    rw [e1]
    have e2 : ("Did you mean \"").data = "Did you mean ".data ++ ['\"'] := by decide
    have e3 : ("\"?").data = '\"' :: ['?'] := by decide
    rw [e2, e3]
    simp
  rw [hdata] at huv
  have hq : '\"' ∉ noMatchPhrase.data := by decide
  have hlenP : noMatchPhrase.length = 22 := by decide
  rcases infix_split '\"' "Did you mean ".data noMatchPhrase.data u v _ huv hq with
    ⟨u1, v1, h1⟩ | ⟨u2, v2, h2⟩
  · have := congrArg List.length h1
    simp [List.length_append] at this
    omega
  · rcases infix_split '\"' sg.data noMatchPhrase.data u2 v2 _ h2 hq with
      ⟨u3, v3, h3⟩ | ⟨u4, v4, h4⟩
    · have : strIncludes noMatchPhrase sg = true := (strIncludes_iff _ _).mpr ⟨u3, v3, h3⟩
      rw [h] at this
      exact Bool.noConfusion this
    · have := congrArg List.length h4
      simp [List.length_append] at this
      omega

/-! ## Helper lemmas: the resolver -/

theorem lowerStr_eq_empty_iff (s : String) : lowerStr s = "" ↔ s = "" := by
  cases s with
  | mk data =>
    cases data with
    | nil => simp [lowerStr]
    | cons c cs =>
      constructor
      · intro h
        have := congrArg String.data h
        simp [lowerStr] at this
      · intro h
        have := congrArg String.data h
        simp at this

theorem findBrand_none_iff (t : String) (brands : List Brand) :
    findBrand t brands = Option.none ↔
      ∀ b ∈ brands, ¬(b.nameOf ≠ "" ∧ lowerStr b.nameOf = lowerStr (trimStr t)) := by
  unfold findBrand
  by_cases h : t = ""
  · rw [if_pos h]
    subst h
    constructor
    · intro _ b _ hb
      have h2 : lowerStr b.nameOf = "" := by simpa [trimStr_empty] using hb.2
      exact hb.1 ((lowerStr_eq_empty_iff _).mp h2)
    · intro _; rfl
  · rw [if_neg h, find?_none_iff]
    constructor
    · intro hall b hb hcontra
      have := hall b hb
      simp only [Bool.and_eq_false_iff, bne_eq_false_iff_eq, beq_eq_false_iff_ne] at this
      rcases this with h1 | h2
      · exact hcontra.1 h1
      · exact h2 hcontra.2
    · intro hall b hb
      have := hall b hb
      simp only [not_and, ne_eq, Bool.and_eq_false_iff, bne_eq_false_iff_eq,
        beq_eq_false_iff_ne] at this ⊢
      by_cases hn : b.nameOf = ""
      · exact Or.inl hn
      · exact Or.inr (this hn)

theorem findBrand_some_split (t : String) (brands : List Brand) (b : Brand)
    (h : findBrand t brands = Option.some b) :
    ∃ l₁ l₂, brands = l₁ ++ b :: l₂ ∧ b.nameOf ≠ "" ∧
      lowerStr b.nameOf = lowerStr (trimStr t) ∧
      ∀ x ∈ l₁, ¬(x.nameOf ≠ "" ∧ lowerStr x.nameOf = lowerStr (trimStr t)) := by
  unfold findBrand at h
  by_cases ht : t = ""
  · rw [if_pos ht] at h; exact Option.noConfusion h
  · rw [if_neg ht] at h
    rcases find?_some_split _ brands b h with ⟨l₁, l₂, rfl, hb, hall⟩
    simp only [Bool.and_eq_true, bne_iff_ne, beq_iff_eq] at hb
    refine ⟨l₁, l₂, rfl, hb.1, hb.2, ?_⟩
    intro x hx hcontra
    have := hall x hx
    simp only [Bool.and_eq_false_iff, bne_eq_false_iff_eq, beq_eq_false_iff_ne] at this
    rcases this with h1 | h2
    · exact hcontra.1 h1
    · exact h2 hcontra.2

theorem findBrandFuzzy_empty (brands : List Brand) (m : Nat) :
    findBrandFuzzy "" brands m = ⟨Option.none, Confidence.none, Option.none⟩ := rfl

/-- Shape of a fuzzy outcome: the loop returned a recorded pair. -/
theorem findBrandFuzzy_fuzzy_shape (word : String) (brands : List Brand) (m : Nat)
    (h : (findBrandFuzzy word brands m).confidence = Confidence.fuzzy) :
    word ≠ "" ∧ findBrand (trimStr word) brands = Option.none ∧
    ∃ b d, fuzzyLoop (trimStr word) (min m (max 1 (2 * (trimStr word).length / 5)))
        brands Option.none = Option.some (b, d) ∧
      findBrandFuzzy word brands m = ⟨Option.some b, Confidence.fuzzy, Option.some d⟩ ∧
      b ∈ brands ∧ b.nameOf ≠ "" := by
  by_cases hw : word = ""
  · rw [hw, findBrandFuzzy_empty] at h
    exact absurd h (by simp)
  · refine ⟨hw, ?_⟩
    cases hfb : findBrand (trimStr word) brands with
    | some e =>
      simp only [findBrandFuzzy, if_neg hw, hfb] at h
      exact absurd h (by simp)
    | none =>
      refine ⟨rfl, ?_⟩
      cases hfl : fuzzyLoop (trimStr word)
          (min m (max 1 (2 * (trimStr word).length / 5))) brands Option.none with
      | none =>
        simp only [findBrandFuzzy, if_neg hw, hfb, hfl] at h
        exact absurd h (by simp)
      | some p =>
        obtain ⟨b, d⟩ := p
        refine ⟨b, d, rfl, ?_, ?_, ?_⟩
        · simp only [findBrandFuzzy, if_neg hw, hfb, hfl]
        · rcases fuzzyLoop_spec _ _ brands Option.none b d hfl with
            ⟨hcontra, _⟩ | ⟨l₁, l₂, hsplit, _, _⟩
          · exact Option.noConfusion hcontra
          · rw [hsplit]
            exact List.mem_append.mpr (Or.inr (List.mem_cons_self _ _))
        · rcases fuzzyLoop_spec _ _ brands Option.none b d hfl with
            ⟨hcontra, _⟩ | ⟨l₁, l₂, _, hq, _⟩
          · exact Option.noConfusion hcontra
          · exact hq.1

/-- Every suggestion the synchronous validator emits is a truthy brand name. -/
theorem isBrandValid_suggestion_nonempty (word : String) (brands : List Brand)
    (lw x : String) (h : (isBrandValid word brands lw).suggestion = Option.some x) :
    x ≠ "" := by
  unfold isBrandValid at h
  by_cases hw : trimStr word = ""
  · rw [if_pos hw] at h
    exact Option.noConfusion h
  · rw [if_neg hw] at h
    rcases hfz : findBrandFuzzy (trimStr word) brands 2 with ⟨ob, conf, od⟩
    rw [hfz] at h
    cases conf with
    | exact =>
      have h2 : (if trimStr lw ≠ "" ∧ startsWithCorrectLetter (trimStr word) lw = false then
            (⟨false, Option.some ("Word must start with \"" ++ upperStr (getLastLetter lw)
                ++ "\""), Option.none, Option.none, Option.none⟩ : VResult)
          else ⟨true, Option.none, Option.some ((ob.map Brand.nameOf).getD ""),
              Option.none, Option.none⟩).suggestion = Option.some x := h
      by_cases hc : trimStr lw ≠ "" ∧ startsWithCorrectLetter (trimStr word) lw = false
      · rw [if_pos hc] at h2; exact Option.noConfusion h2
      · rw [if_neg hc] at h2; exact Option.noConfusion h2
    | none =>
      exact Option.noConfusion h
    | fuzzy =>
      have h2 : Option.some ((ob.map Brand.nameOf).getD "") = Option.some x := h
      injection h2 with h'
      have hconf : (findBrandFuzzy (trimStr word) brands 2).confidence
          = Confidence.fuzzy := by rw [hfz]
      rcases findBrandFuzzy_fuzzy_shape (trimStr word) brands 2 hconf with
        ⟨_, _, b, d, _, hfz2, _, hname⟩
      rw [hfz] at hfz2
      injection hfz2 with hb _ _
      rw [← h', hb]
      simpa using hname

/-- Every suggestion the asynchronous validator emits is a truthy brand name. -/
theorem isBrandValidAsync_suggestion_nonempty (word : String) (brands : List Brand)
    (lw x : String) (w : WikiResult)
    (h : (isBrandValidAsync word brands lw w).suggestion = Option.some x) : x ≠ "" := by
  unfold isBrandValidAsync at h
  by_cases h1 : (isBrandValid word brands lw).valid
  · rw [if_pos h1] at h
    exact isBrandValid_suggestion_nonempty word brands lw x h
  · rw [if_neg h1] at h
    by_cases h2 : errTriggers (isBrandValid word brands lw).error
    · rw [if_pos h2] at h
      by_cases h3 : w.valid
      · rw [if_pos h3] at h
        by_cases h4 : trimStr lw ≠ "" ∧ startsWithCorrectLetter (trimStr word) lw = false
        · rw [if_pos h4] at h; exact Option.noConfusion h
        · rw [if_neg h4] at h; exact Option.noConfusion h
      · rw [if_neg h3] at h
        exact isBrandValid_suggestion_nonempty word brands lw x h
    · rw [if_neg h2] at h
      exact isBrandValid_suggestion_nonempty word brands lw x h

/-- When the synchronous verdict is invalid and its message lacks the
trigger phrase, the asynchronous validator returns it tagged `database`. -/
theorem async_of_no_trigger (word : String) (brands : List Brand) (lastWord : String)
    (w : WikiResult) (h1 : (isBrandValid word brands lastWord).valid = false)
    (h2 : errTriggers (isBrandValid word brands lastWord).error = false) :
    isBrandValidAsync word brands lastWord w
      = { isBrandValid word brands lastWord with source := some MatchSource.database } := by
  unfold isBrandValidAsync
  rw [if_neg (by simp [h1]), if_neg (by simp [h2])]

/-- `jsOr` is the identity on the validator's suggestions. -/
theorem jsOr_async_suggestion (word : String) (brands : List Brand) (lw : String)
    (w : WikiResult) :
    jsOr (isBrandValidAsync word brands lw w).suggestion
      = (isBrandValidAsync word brands lw w).suggestion := by
  cases hs : (isBrandValidAsync word brands lw w).suggestion with
  | none => rfl
  | some x =>
    have := isBrandValidAsync_suggestion_nonempty word brands lw x w hs
    simp [jsOr, this]

/-! ## Concrete scenario used by the C3/C5 counterexamples

The candidate `"not a recognized brand"` sits at distance 1 from the
dictionary entry `"not a recognized brandx"`, so the synchronous validator
rejects it with `Did you mean "not a recognized brandx"?` — a *fuzzy*
rejection whose message nevertheless contains the trigger phrase. -/

theorem levRec_snoc_self (A : List Char) (c : Char) : levRec A (c :: A) = 1 := by
  have h1 : levRec A (c :: A) ≤ 1 := by
    have := levRec_consr_le c A A
    simpa using this
  have h2 := levRec_triangle ([] : List Char) A (c :: A)
  simp only [levRec_nil_left, List.length_cons] at h2
  omega

/-- The pathological dictionary entry. -/
def brandX : Brand := Brand.str "not a recognized brandx"

/-- The pathological candidate. -/
def badWord : String := "not a recognized brand"

/-- A fallback lookup reporting existence with canonical title `"Pepsi"`. -/
def wikiYes : WikiResult := ⟨true, true, Option.some "Pepsi", Option.none⟩

/-- A fallback lookup reporting non-existence. -/
def wikiNo : WikiResult := ⟨false, false, Option.none, Option.none⟩

theorem dist_badWord_brandX : levenshteinDistance badWord brandX.nameOf = 1 := by
  rw [levenshteinDistance_eq_levRec]
  have e : (lowerStr brandX.nameOf).data = (lowerStr badWord).data ++ ['x'] := by decide
  rw [e, List.reverse_append]
  simp only [List.reverse_cons, List.reverse_nil, List.nil_append, List.singleton_append]
  exact levRec_snoc_self _ 'x'

theorem fuzzyLoop_badWord :
    fuzzyLoop (trimStr badWord) (min 2 (max 1 (2 * (trimStr badWord).length / 5)))
      [brandX] Option.none = Option.some (brandX, 1) := by
  have htrim : trimStr badWord = badWord := by decide
  rw [htrim]
  have hthr : min 2 (max 1 (2 * badWord.length / 5)) = 2 := by decide
  rw [hthr]
  simp only [fuzzyLoop]
  rw [if_neg (by decide : ¬(brandX.nameOf = ""))]
  rw [dist_badWord_brandX]
  rw [if_pos ⟨by omega, rfl⟩]

theorem findBrandFuzzy_badWord :
    findBrandFuzzy badWord [brandX] 2
      = ⟨Option.some brandX, Confidence.fuzzy, Option.some 1⟩ := by
  have hfb : findBrand (trimStr badWord) [brandX] = Option.none := by decide
  simp only [findBrandFuzzy, if_neg (by decide : ¬(badWord = "")), hfb, fuzzyLoop_badWord]

theorem isBrandValid_badWord (lw : String) :
    isBrandValid badWord [brandX] lw
      = ⟨false, Option.some "Did you mean \"not a recognized brandx\"?", Option.none,
          Option.some "not a recognized brandx", Option.none⟩ := by
  have htrim : trimStr badWord = badWord := by decide
  simp only [isBrandValid, htrim, if_neg (by decide : ¬(badWord = "")),
    findBrandFuzzy_badWord]
  rfl

theorem isBrandValidAsync_badWord :
    isBrandValidAsync badWord [brandX] "" wikiYes
      = ⟨true, Option.none, Option.some "Pepsi", Option.none,
          Option.some MatchSource.wikipedia⟩ := by
  simp only [isBrandValidAsync, isBrandValid_badWord]
  rw [if_neg (by simp)]
  rw [if_pos (by decide :
    errTriggers (Option.some "Did you mean \"not a recognized brandx\"?") = true)]
  rw [if_pos (by decide : wikiYes.valid = true)]
  rw [if_neg (by simp [trimStr_empty])]
  rfl

/-- **C9.** The edit-distance function `levenshteinDistance` satisfies
`distance(a, a) = 0`, symmetry `distance(a, b) = distance(b, a)`, the
triangle inequality `distance(a, c) ≤ distance(a, b) + distance(b, c)`, and
`distance("", x) = length x`. -/
theorem levenshtein_metric_properties (a b c x : String) :
    levenshteinDistance a a = 0 ∧
    levenshteinDistance a b = levenshteinDistance b a ∧
    levenshteinDistance a c ≤ levenshteinDistance a b + levenshteinDistance b c ∧
    levenshteinDistance "" x = x.length := by
  refine ⟨?_, ?_, ?_, ?_⟩
  · rw [levenshteinDistance_eq_levRec]
    exact levRec_self _
  · rw [levenshteinDistance_eq_levRec, levenshteinDistance_eq_levRec]
    exact levRec_symm _ _
  · rw [levenshteinDistance_eq_levRec a c, levenshteinDistance_eq_levRec a b,
      levenshteinDistance_eq_levRec b c]
    exact levRec_triangle _ _ _
  · simp [levenshteinDistance]

/-- **C1 (amended).** For every state that is not game-over and every word on
which the validator returns a valid outcome, `submitWord` appends one entry
for the acting player, updates `lastWord` to the resolved brand, adds the
**raw** length of the submitted string (`word.length`, which equals the
trimmed length whenever the caller pre-trims, as the UI does) to the acting
player's score, changes no other score, flips `currentPlayer`, and returns
success. -/
theorem submitWord_valid_spec (brands : List Brand) (w : WikiResult) (s : GameState)
    (word : String) (hgo : s.isGameOver = false)
    (hv : (isBrandValidAsync word brands s.lastWord w).valid = true) :
    (submitWord brands w s word).1.words
        = s.words ++ [⟨s.currentPlayer,
            ((isBrandValidAsync word brands s.lastWord w).brand).getD "",
            (isBrandValidAsync word brands s.lastWord w).source⟩] ∧
    (submitWord brands w s word).1.lastWord
        = ((isBrandValidAsync word brands s.lastWord w).brand).getD "" ∧
    (submitWord brands w s word).1.scores s.currentPlayer
        = s.scores s.currentPlayer + word.length ∧
    (∀ p, p ≠ s.currentPlayer → (submitWord brands w s word).1.scores p = s.scores p) ∧
    (submitWord brands w s word).1.currentPlayer
        = (if s.currentPlayer = 1 then 2 else 1) ∧
    (submitWord brands w s word).2.success = true := by
  unfold submitWord
  rw [if_neg (by simp [hv])]
  refine ⟨rfl, rfl, ?_, ?_, rfl, rfl⟩
  · simp
  · intro p hp
    simp [hp]

/-- **C1, counterexample to the claim as stated.**  Submitting `" Nike "`
(raw length 6, trimmed length 4) is accepted and adds 6 points, not the
trimmed length 4: `submitWord` scores `word.length` on the untrimmed
argument. -/
theorem submitWord_trimmed_length_counterexample :
    (isBrandValidAsync " Nike " [Brand.str "Nike"] "" wikiNo).valid = true ∧
    (trimStr " Nike ").length = 4 ∧
    (" Nike " : String).length = 6 ∧
    (submitWord [Brand.str "Nike"] wikiNo initialState " Nike ").1.scores 1 = 6 ∧
    (submitWord [Brand.str "Nike"] wikiNo initialState " Nike ").2.success = true := by
  refine ⟨by decide, by decide, by decide, by decide, by decide⟩

theorem submitWord_valid_spec_witness :
    (submitWord [Brand.str "Nike"] wikiNo initialState "Nike").1.scores 1 = 0 + 4 ∧
    (submitWord [Brand.str "Nike"] wikiNo initialState "Nike").2.success = true := by
  have h := submitWord_valid_spec [Brand.str "Nike"] wikiNo initialState "Nike" rfl
    (by decide)
  exact ⟨h.2.2.1, h.2.2.2.2.2⟩

/-- **C2.** On an invalid validator outcome, `submitWord` returns the state
unchanged (every field, including `isGameOver` and `winner`, keeps its
value — no rejection ends the game; the embedding is a total function, as
the JS code catches its failures internally) together with a failure
carrying the validator's error, suggestion and source. -/
theorem submitWord_invalid_spec (brands : List Brand) (w : WikiResult) (s : GameState)
    (word : String) (hv : (isBrandValidAsync word brands s.lastWord w).valid = false) :
    submitWord brands w s word =
      (s, ⟨false, (isBrandValidAsync word brands s.lastWord w).error,
        (isBrandValidAsync word brands s.lastWord w).suggestion,
        (isBrandValidAsync word brands s.lastWord w).source⟩) := by
  unfold submitWord
  rw [if_pos hv, jsOr_async_suggestion]

theorem submitWord_invalid_spec_witness :
    (submitWord [] wikiNo initialState "").1 = initialState ∧
    (submitWord [] wikiNo initialState "").2.success = false := by
  have h := submitWord_invalid_spec [] wikiNo initialState "" (by decide)
  exact ⟨congrArg Prod.fst h, by rw [h]⟩

/-- **C3 (amended).** The asynchronous validator returns the synchronous
verdict tagged `database` when that verdict is valid, and also whenever the
verdict is invalid but its error message does not contain the substring
`'not a recognized brand'` — the fallback trigger is a substring test on the
message, which coincides with "the rejection is the no-match error"
exactly when no dictionary entry's display name embeds the phrase.  When the
message does contain the phrase: a lookup reporting existence leads to
re-applying the chain rule — valid with `source = wikipedia` and `brand` =
canonical title on success, the letter-mismatch error with
`source = wikipedia` on failure; a lookup reporting non-existence (errors
are converted to non-existence inside the lookup) leaves the original
synchronous rejection, tagged `database`. -/
theorem isBrandValidAsync_spec (word : String) (brands : List Brand)
    (lastWord : String) (w : WikiResult) :
    ((isBrandValid word brands lastWord).valid = true →
      isBrandValidAsync word brands lastWord w
        = { isBrandValid word brands lastWord with source := some MatchSource.database }) ∧
    ((isBrandValid word brands lastWord).valid = false →
      errTriggers (isBrandValid word brands lastWord).error = false →
      isBrandValidAsync word brands lastWord w
        = { isBrandValid word brands lastWord with source := some MatchSource.database }) ∧
    ((isBrandValid word brands lastWord).valid = false →
      errTriggers (isBrandValid word brands lastWord).error = true →
      w.valid = true →
      (¬(trimStr lastWord ≠ "" ∧
          startsWithCorrectLetter (trimStr word) lastWord = false) →
        isBrandValidAsync word brands lastWord w
          = ⟨true, none, w.title, none, some MatchSource.wikipedia⟩) ∧
      ((trimStr lastWord ≠ "" ∧
          startsWithCorrectLetter (trimStr word) lastWord = false) →
        isBrandValidAsync word brands lastWord w
          = ⟨false, some ("Word must start with \"" ++ upperStr (getLastLetter lastWord)
              ++ "\""), none, none, some MatchSource.wikipedia⟩)) ∧
    ((isBrandValid word brands lastWord).valid = false →
      errTriggers (isBrandValid word brands lastWord).error = true →
      w.valid = false →
      isBrandValidAsync word brands lastWord w
        = { isBrandValid word brands lastWord with source := some MatchSource.database }) := by
  unfold isBrandValidAsync
  refine ⟨?_, ?_, ?_, ?_⟩
  · intro h1
    rw [if_pos h1]
  · intro h1 h2
    rw [if_neg (by simp [h1]), if_neg (by simp [h2])]
  · intro h1 h2 h3
    constructor
    · intro h4
      rw [if_neg (by simp [h1]), if_pos h2, if_pos h3, if_neg h4]
    · intro h4
      rw [if_neg (by simp [h1]), if_pos h2, if_pos h3, if_pos h4]
  · intro h1 h2 h3
    rw [if_neg (by simp [h1]), if_pos h2, if_neg (by simp [h3])]

/-- **C3, counterexample to the claim as stated.**  With dictionary
`["not a recognized brandx"]` the candidate `"not a recognized brand"`
receives a *fuzzy* did-you-mean rejection (suggestion present, so the
rejection reason is not the no-match error), yet the external lookup is
still consulted — with a lookup reporting existence the asynchronous
validator accepts the word instead of returning the synchronous rejection
unchanged. -/
theorem isBrandValidAsync_trigger_counterexample :
    (isBrandValid badWord [brandX] "").valid = false ∧
    (isBrandValid badWord [brandX] "").suggestion
        = some "not a recognized brandx" ∧
    (findBrandFuzzy (trimStr badWord) [brandX] 2).confidence = Confidence.fuzzy ∧
    (isBrandValidAsync badWord [brandX] "" wikiYes).valid = true ∧
    (isBrandValidAsync badWord [brandX] "" wikiYes).brand = some "Pepsi" := by
  have htrim : trimStr badWord = badWord := by decide
  refine ⟨?_, ?_, ?_, ?_, ?_⟩
  · rw [isBrandValid_badWord]
  · rw [isBrandValid_badWord]
  · rw [htrim, findBrandFuzzy_badWord]
  · rw [isBrandValidAsync_badWord]
  · rw [isBrandValidAsync_badWord]

theorem isBrandValidAsync_spec_witness :
    isBrandValidAsync "Tesla" [] "" wikiYes
      = ⟨true, none, some "Pepsi", none, some MatchSource.wikipedia⟩ := by
  have h := ((isBrandValidAsync_spec "Tesla" [] "" wikiYes).2.2.1
    (by decide) (by decide) (by decide)).1 (by simp [trimStr_empty])
  exact h

/-- The proportional fuzzy threshold at the resolver's default static
ceiling `maxDistance = 2`: `min(2, max(1, ⌊0.4·len⌋))`. -/
def fuzzyThreshold (t : String) : Nat := min 2 (max 1 (2 * t.length / 5))

/-- **C4 (amended).** For a non-empty candidate, restricting attention to
dictionary entries with a **non-empty display name** (the code skips falsy
names): if some such entry equals the trimmed candidate case-insensitively
the resolver returns `exact` with the first such entry (never `fuzzy`);
otherwise it returns `fuzzy` iff some such entry is within threshold
`min(2, max(1, ⌊0.4·len(trimmed candidate)⌋))`, choosing the first entry
attaining the smallest qualifying distance, and `none` when no entry
qualifies. -/
theorem findBrandFuzzy_resolver_spec (word : String) (brands : List Brand)
    (hw : word ≠ "") :
    ((∃ b ∈ brands, b.nameOf ≠ "" ∧ lowerStr b.nameOf = lowerStr (trimStr word)) →
      (findBrandFuzzy word brands 2).confidence = Confidence.exact ∧
      ∃ l₁ b l₂, brands = l₁ ++ b :: l₂ ∧
        (findBrandFuzzy word brands 2).brand = Option.some b ∧
        b.nameOf ≠ "" ∧ lowerStr b.nameOf = lowerStr (trimStr word) ∧
        ∀ x ∈ l₁, ¬(x.nameOf ≠ "" ∧ lowerStr x.nameOf = lowerStr (trimStr word))) ∧
    ((¬ ∃ b ∈ brands, b.nameOf ≠ "" ∧ lowerStr b.nameOf = lowerStr (trimStr word)) →
      ((findBrandFuzzy word brands 2).confidence = Confidence.fuzzy ↔
        ∃ b ∈ brands, qualifies (trimStr word) (fuzzyThreshold (trimStr word)) b) ∧
      ((findBrandFuzzy word brands 2).confidence = Confidence.none ↔
        ¬ ∃ b ∈ brands, qualifies (trimStr word) (fuzzyThreshold (trimStr word)) b) ∧
      (∀ b d, (findBrandFuzzy word brands 2).brand = Option.some b →
        (findBrandFuzzy word brands 2).distance = Option.some d →
        ∃ l₁ l₂, brands = l₁ ++ b :: l₂ ∧
          qualifies (trimStr word) (fuzzyThreshold (trimStr word)) b ∧
          d = levenshteinDistance (trimStr word) b.nameOf ∧
          (∀ x ∈ l₁, qualifies (trimStr word) (fuzzyThreshold (trimStr word)) x →
            d < levenshteinDistance (trimStr word) x.nameOf) ∧
          (∀ x ∈ brands, qualifies (trimStr word) (fuzzyThreshold (trimStr word)) x →
            d ≤ levenshteinDistance (trimStr word) x.nameOf))) := by
  constructor
  · rintro ⟨b0, hb0, hname0, heq0⟩
    have hne : findBrand (trimStr word) brands ≠ Option.none := by
      intro hcontra
      rw [findBrand_none_iff] at hcontra
      have := hcontra b0 hb0
      rw [trimStr_idem] at this
      exact this ⟨hname0, heq0⟩
    cases hfb : findBrand (trimStr word) brands with
    | none => exact absurd hfb hne
    | some e =>
      constructor
      · simp only [findBrandFuzzy, if_neg hw, hfb]
      · rcases findBrand_some_split _ brands e hfb with ⟨l₁, l₂, hsplit, hn, heq, hall⟩
        rw [trimStr_idem] at heq
        refine ⟨l₁, e, l₂, hsplit, ?_, hn, heq, ?_⟩
        · simp only [findBrandFuzzy, if_neg hw, hfb]
        · intro x hx
          have := hall x hx
          rwa [trimStr_idem] at this
  · intro hnoex
    have hfb : findBrand (trimStr word) brands = Option.none := by
      rw [findBrand_none_iff]
      intro b hb hc
      rw [trimStr_idem] at hc
      exact hnoex ⟨b, hb, hc⟩
    cases hfl : fuzzyLoop (trimStr word) (min 2 (max 1 (2 * (trimStr word).length / 5)))
        brands Option.none with
    | none =>
      have hres : findBrandFuzzy word brands 2
          = ⟨Option.none, Confidence.none, Option.none⟩ := by
        simp only [findBrandFuzzy, if_neg hw, hfb, hfl]
      have hnoqual := (fuzzyLoop_none_iff (trimStr word)
        (min 2 (max 1 (2 * (trimStr word).length / 5))) brands).mp hfl
      refine ⟨?_, ?_, ?_⟩
      · rw [hres]
        constructor
        · intro hcontra; exact absurd hcontra (by simp)
        · rintro ⟨b, hb, hq⟩; exact absurd hq (hnoqual b hb)
      · rw [hres]
        constructor
        · rintro _ ⟨b, hb, hq⟩; exact absurd hq (hnoqual b hb)
        · intro _; rfl
      · intro b d hbrand _
        rw [hres] at hbrand
        exact Option.noConfusion hbrand
    | some p =>
      obtain ⟨b0, d0⟩ := p
      have hres : findBrandFuzzy word brands 2
          = ⟨Option.some b0, Confidence.fuzzy, Option.some d0⟩ := by
        simp only [findBrandFuzzy, if_neg hw, hfb, hfl]
      rcases fuzzyLoop_spec _ _ brands Option.none b0 d0 hfl with ⟨hcontra, _⟩ |
        ⟨l₁, l₂, hsplit, hq, hd, _, hfirst, hlast⟩
      · exact absurd hcontra (by simp)
      have hmem : b0 ∈ brands := by
        rw [hsplit]
        exact List.mem_append.mpr (Or.inr (List.mem_cons_self _ _))
      refine ⟨?_, ?_, ?_⟩
      · rw [hres]
        exact ⟨fun _ => ⟨b0, hmem, hq⟩, fun _ => rfl⟩
      · rw [hres]
        constructor
        · intro hcontra; exact absurd hcontra (by simp)
        · intro hcontra; exact absurd ⟨b0, hmem, hq⟩ hcontra
      · intro b d hbrand hdist
        rw [hres] at hbrand hdist
        injection hbrand with hb
        injection hdist with hd'
        subst hb
        subst hd'
        refine ⟨l₁, l₂, hsplit, hq, hd, ?_, ?_⟩
        · intro x hx hqx
          exact hfirst x hx hqx (beats_none _)
        · intro x hx hqx
          rw [hsplit] at hx
          rcases List.mem_append.mp hx with hx1 | hx2
          · exact le_of_lt (hfirst x hx1 hqx (beats_none _))
          · rcases List.mem_cons.mp hx2 with rfl | hx3
            · rw [hd]
            · exact hlast x hx3 hqx

/-- **C4, counterexample to the claim as stated.**  The dictionary entry
`""` has edit distance 1 to the candidate `"a"`, within the threshold
`min(2, max(1, ⌊0.4·1⌋)) = 1`, so the claim's characterization demands a
fuzzy outcome — but the code skips entries with falsy names and returns
confidence `none`. -/
theorem findBrandFuzzy_empty_name_counterexample :
    levenshteinDistance "a" (Brand.str "").nameOf = 1 ∧
    1 ≤ fuzzyThreshold (trimStr "a") ∧
    (findBrandFuzzy "a" [Brand.str ""] 2).confidence = Confidence.none := by
  refine ⟨by decide, by decide, by decide⟩

theorem findBrandFuzzy_resolver_spec_witness :
    (findBrandFuzzy "Nikee" [Brand.str "Nike"] 2).confidence = Confidence.fuzzy := by
  have h := ((findBrandFuzzy_resolver_spec "Nikee" [Brand.str "Nike"] (by decide)).2
    (by decide)).1
  exact h.mpr ⟨Brand.str "Nike", by decide, by decide⟩

/-- **C5 (amended).** A fuzzy resolver outcome makes the synchronous
validator return the did-you-mean rejection with the matched brand's display
name as suggestion, independently of the previous word (the chain rule is
not consulted).  Provided additionally that no dictionary entry's display
name contains the phrase `'not a recognized brand'` (otherwise the
did-you-mean message itself can contain the fallback trigger and the
submission can be accepted through the external lookup), submitting such a
candidate never changes the game state and returns failure. -/
theorem fuzzy_never_accepted (word : String) (brands : List Brand) (s : GameState)
    (w : WikiResult)
    (hf : (findBrandFuzzy (trimStr word) brands 2).confidence = Confidence.fuzzy)
    (hclean : ∀ b ∈ brands, strIncludes noMatchPhrase b.nameOf = false) :
    (∃ sg, sg ≠ "" ∧
      ∀ lw, isBrandValid word brands lw
        = ⟨false, some ("Did you mean \"" ++ sg ++ "\"?"), none, some sg, none⟩) ∧
    (submitWord brands w s word).1 = s ∧
    (submitWord brands w s word).2.success = false := by
  have hw' : trimStr word ≠ "" := by
    intro hcontra
    rw [hcontra, findBrandFuzzy_empty] at hf
    exact absurd hf (by simp)
  rcases findBrandFuzzy_fuzzy_shape (trimStr word) brands 2 hf with
    ⟨_, _, b, d, hloop, hfz, hmem, hname⟩
  have hval : ∀ lw, isBrandValid word brands lw
      = ⟨false, some ("Did you mean \"" ++ b.nameOf ++ "\"?"), none,
          some b.nameOf, none⟩ := by
    intro lw
    simp only [isBrandValid, if_neg hw', hfz]
    rfl
  have hmsg : errTriggers (isBrandValid word brands s.lastWord).error = false := by
    rw [hval s.lastWord]
    have hphr := phrase_not_in_didYouMean b.nameOf (hclean b hmem)
    simp only [errTriggers]
    simp
    intro _
    exact hphr
  have hasync : isBrandValidAsync word brands s.lastWord w
      = ⟨false, some ("Did you mean \"" ++ b.nameOf ++ "\"?"), none,
          some b.nameOf, some MatchSource.database⟩ := by
    have h2 := async_of_no_trigger word brands s.lastWord w (by rw [hval]) hmsg
    rw [h2, hval]
  refine ⟨⟨b.nameOf, hname, hval⟩, ?_, ?_⟩
  · unfold submitWord
    rw [if_pos (by rw [hasync])]
  · unfold submitWord
    rw [if_pos (by rw [hasync])]

/-- **C5, counterexample to the claim as stated.**  With dictionary
`["not a recognized brandx"]` the candidate `"not a recognized brand"` is a
fuzzy resolver outcome, yet submitting it (with an external lookup that
reports existence) *is* accepted: the score, turn and history all change. -/
theorem fuzzy_accepted_counterexample :
    (findBrandFuzzy (trimStr badWord) [brandX] 2).confidence = Confidence.fuzzy ∧
    (submitWord [brandX] wikiYes initialState badWord).2.success = true ∧
    (submitWord [brandX] wikiYes initialState badWord).1.currentPlayer = 2 ∧
    (submitWord [brandX] wikiYes initialState badWord).1.scores 1 = 22 ∧
    (submitWord [brandX] wikiYes initialState badWord).1.words ≠ [] := by
  have htrim : trimStr badWord = badWord := by decide
  have hlw : initialState.lastWord = "" := rfl
  have hsub : submitWord [brandX] wikiYes initialState badWord
      = ({ currentPlayer := 2
           words := [⟨1, "Pepsi", some MatchSource.wikipedia⟩]
           scores := fun p => if p = 1 then 0 + badWord.length else 0
           lastWord := "Pepsi"
           isGameOver := false
           winner := none },
         ⟨true, none, none, some MatchSource.wikipedia⟩) := by
    unfold submitWord
    rw [hlw, isBrandValidAsync_badWord]
    rw [if_neg (by simp)]
    rfl
  refine ⟨by rw [htrim, findBrandFuzzy_badWord], ?_, ?_, ?_, ?_⟩
  · rw [hsub]
  · rw [hsub]
  · rw [hsub]
    decide
  · rw [hsub]
    simp

theorem fuzzy_never_accepted_witness :
    (submitWord [Brand.str "Adidas"] wikiNo initialState "Adidaz").1 = initialState ∧
    (submitWord [Brand.str "Adidas"] wikiNo initialState "Adidaz").2.success = false := by
  have h := fuzzy_never_accepted "Adidaz" [Brand.str "Adidas"] initialState wikiNo
    (by decide) (by decide)
  exact ⟨h.2.1, h.2.2⟩

/-- **C6 (amended).** For a previous word that is non-blank (non-empty
*after trimming*) the chain rule accepts `w` iff `w` is non-empty and `w`'s
first significant character equals the previous word's last significant
character (each possibly the empty string, for whitespace-only candidates
resp. all-punctuation previous words); for a null, empty **or
whitespace-only** previous word every candidate is accepted. -/
theorem startsWithCorrectLetter_spec (w lw : String) :
    (trimStr lw ≠ "" →
      (startsWithCorrectLetter w lw = true ↔
        w ≠ "" ∧ firstLetter w = getLastLetter lw)) ∧
    (trimStr lw = "" → startsWithCorrectLetter w lw = true) := by
  constructor
  · intro h
    unfold startsWithCorrectLetter
    rw [if_neg h]
    by_cases hw : w = ""
    · rw [if_pos hw]
      simp [hw]
    · rw [if_neg hw]
      simp [hw, beq_iff_eq]
  · intro h
    unfold startsWithCorrectLetter
    rw [if_pos h]

/-- **C6, counterexample to the claim as stated.**  `" "` is a non-empty
previous word; the rule accepts `"b"` after it (the code treats
whitespace-only previous words like the empty one), although `"b"`'s first
significant character differs from `" "`'s last significant character
(which is empty). -/
theorem startsWithCorrectLetter_counterexample :
    (" " : String) ≠ "" ∧
    startsWithCorrectLetter "b" " " = true ∧
    firstLetter "b" = "b" ∧
    getLastLetter " " = "" ∧
    firstLetter "b" ≠ getLastLetter " " := by decide

theorem startsWithCorrectLetter_spec_witness :
    startsWithCorrectLetter "Everest" "Nike" = true ↔
      ("Everest" : String) ≠ "" ∧ firstLetter "Everest" = getLastLetter "Nike" :=
  (startsWithCorrectLetter_spec "Everest" "Nike").1 (by decide)

/-- **C7.** The external lookup is a total function of the candidate and the
network outcome — every failure (thrown fetch, non-2xx response, malformed
JSON, missing result list) is absorbed into a not-found record
(`valid = false`, `exists = false`) instead of an exception; and it reports
existence only when some returned result title case-insensitively equals
the trimmed query or one is a case-insensitive substring of the other. -/
theorem validateBrandWithWikipedia_spec (brand : String) (resp : WikiResponse) :
    ((resp = WikiResponse.fetchError ∨ resp = WikiResponse.notOk ∨
        resp = WikiResponse.jsonError ∨ resp = WikiResponse.payload Option.none) →
      (validateBrandWithWikipedia brand resp).valid = false ∧
      (validateBrandWithWikipedia brand resp).existsFlag = false) ∧
    ((validateBrandWithWikipedia brand resp).existsFlag = true →
      ∃ titles title, resp = WikiResponse.payload (Option.some titles) ∧
        title ∈ titles ∧
        (validateBrandWithWikipedia brand resp).title = Option.some title ∧
        (lowerStr title = lowerStr (trimStr brand) ∨
          strIncludes (lowerStr (trimStr brand)) (lowerStr title) = true ∨
          strIncludes (lowerStr title) (lowerStr (trimStr brand)) = true)) := by
  by_cases hb : brand = ""
  · have hv : validateBrandWithWikipedia brand resp
        = ⟨false, false, Option.none, some "Invalid brand name"⟩ := by
      unfold validateBrandWithWikipedia
      rw [if_pos hb]
    rw [hv]
    exact ⟨fun _ => ⟨rfl, rfl⟩, fun hcontra => absurd hcontra (by simp)⟩
  · cases resp with
    | fetchError =>
      have hv : validateBrandWithWikipedia brand WikiResponse.fetchError
          = ⟨false, false, Option.none, some "Network error"⟩ := by
        unfold validateBrandWithWikipedia
        rw [if_neg hb]
      rw [hv]
      exact ⟨fun _ => ⟨rfl, rfl⟩, fun h => absurd h (by simp)⟩
    | notOk =>
      have hv : validateBrandWithWikipedia brand WikiResponse.notOk
          = ⟨false, false, Option.none, some "Wikipedia API request failed"⟩ := by
        unfold validateBrandWithWikipedia
        rw [if_neg hb]
      rw [hv]
      exact ⟨fun _ => ⟨rfl, rfl⟩, fun h => absurd h (by simp)⟩
    | jsonError =>
      have hv : validateBrandWithWikipedia brand WikiResponse.jsonError
          = ⟨false, false, Option.none, some "Network error"⟩ := by
        unfold validateBrandWithWikipedia
        rw [if_neg hb]
      rw [hv]
      exact ⟨fun _ => ⟨rfl, rfl⟩, fun h => absurd h (by simp)⟩
    | payload osearch =>
      cases osearch with
      | none =>
        have hv : validateBrandWithWikipedia brand (WikiResponse.payload Option.none)
            = ⟨false, false, Option.none, some "No results found"⟩ := by
          unfold validateBrandWithWikipedia
          rw [if_neg hb]
        rw [hv]
        exact ⟨fun _ => ⟨rfl, rfl⟩, fun h => absurd h (by simp)⟩
      | some titles =>
        have hv : validateBrandWithWikipedia brand (WikiResponse.payload (Option.some titles))
            = match titles.find? (wikiTitleMatches (trimStr brand)) with
              | Option.some title => ⟨true, true, Option.some title, Option.none⟩
              | Option.none => ⟨false, false, Option.none, Option.none⟩ := by
          unfold validateBrandWithWikipedia
          rw [if_neg hb]
        rw [hv]
        constructor
        · rintro (h | h | h | h) <;> simp at h
        · intro hex
          cases hfind : titles.find? (wikiTitleMatches (trimStr brand)) with
          | none =>
            rw [hfind] at hex
            exact Bool.noConfusion hex
          | some t =>
            refine ⟨titles, t, rfl, List.mem_of_find?_eq_some hfind, rfl, ?_⟩
            have hmatch := List.find?_some hfind
            unfold wikiTitleMatches at hmatch
            simp only [Bool.or_eq_true, beq_iff_eq] at hmatch
            rcases hmatch with (h1 | h2) | h3
            · exact Or.inl h1
            · exact Or.inr (Or.inl h2)
            · exact Or.inr (Or.inr h3)

theorem validateBrandWithWikipedia_spec_witness :
    ((validateBrandWithWikipedia "Nike" WikiResponse.notOk).valid = false ∧
      (validateBrandWithWikipedia "Nike" WikiResponse.notOk).existsFlag = false) ∧
    (∃ titles title,
      WikiResponse.payload (Option.some ["Nike"])
          = WikiResponse.payload (Option.some titles) ∧
      title ∈ titles ∧
      (validateBrandWithWikipedia "nike"
          (WikiResponse.payload (Option.some ["Nike"]))).title = Option.some title ∧
      (lowerStr title = lowerStr (trimStr "nike") ∨
        strIncludes (lowerStr (trimStr "nike")) (lowerStr title) = true ∨
        strIncludes (lowerStr title) (lowerStr (trimStr "nike")) = true)) :=
  ⟨(validateBrandWithWikipedia_spec "Nike" WikiResponse.notOk).1 (Or.inr (Or.inl rfl)),
    (validateBrandWithWikipedia_spec "nike"
      (WikiResponse.payload (Option.some ["Nike"]))).2 (by decide)⟩

/-- **C8.** `endGame` (and `skipTurn`, which just calls it) sets
`isGameOver` and declares the opponent of the player currently to move the
winner; the winner is then defined. -/
theorem endGame_spec (s : GameState) :
    (endGame s).isGameOver = true ∧
    (endGame s).winner = some (if s.currentPlayer = 1 then 2 else 1) ∧
    (endGame s).winner ≠ none ∧
    skipTurn s = endGame s :=
  ⟨rfl, rfl, by simp [endGame], rfl⟩

/-- **C10 (amended).** A previous word that is non-blank but yields an empty
extracted last letter (all its characters are punctuation) makes the chain
rule reject every candidate that is non-empty **after trimming**; a
whitespace-only candidate is still accepted, because its extracted first
character is also the empty string. -/
theorem punct_prev_rejects (lw w : String) (h1 : trimStr lw ≠ "")
    (h2 : getLastLetter lw = "") (h3 : trimStr w ≠ "") :
    startsWithCorrectLetter w lw = false := by
  unfold startsWithCorrectLetter
  rw [if_neg h1]
  have hw : w ≠ "" := by
    intro hcontra
    subst hcontra
    exact h3 trimStr_empty
  rw [if_neg hw, h2]
  unfold firstLetter
  cases hd : (trimStr w).data with
  | nil =>
    exfalso
    apply h3
    cases htw : trimStr w with
    | mk l =>
      rw [htw] at hd
      simp at hd
      subst hd
      decide
  | cons c cs =>
    have hne : String.singleton c.toLower ≠ "" := by
      intro hcon
      have := congrArg String.data hcon
      simp [String.singleton] at this
    exact beq_eq_false_iff_ne.mpr hne

/-- **C10, counterexample to the claim as stated.**  After the
all-punctuation previous word `"!!!"` (non-blank, empty last letter) the
rule still *accepts* the whitespace-only candidate `" "`: the constraint is
not unsatisfiable for every candidate. -/
theorem punct_prev_counterexample :
    trimStr "!!!" ≠ "" ∧
    getLastLetter "!!!" = "" ∧
    startsWithCorrectLetter " " "!!!" = true := by decide

theorem punct_prev_rejects_witness : startsWithCorrectLetter "a" "!!!" = false :=
  punct_prev_rejects "!!!" "a" (by decide) (by decide) (by decide)

end WordChain
